import Mathlib

/-!
Verification development for the minikin `Layout` text-layout engine
(`src/include/minikin/Layout.h`).  The header declares the interface; the
method bodies are not part of the given sources, so the pipeline
(bidi segmentation → word cache → shape → merge) is modelled from the
design document, while the pieces that are present in the header
(the `Layout()` constructor initializer list, the inline
`getCharAdvance`) are embedded directly.  External collaborators
(shaping engine, bidi segmentation, word breaking) are out of scope of the
repository and appear as oracle parameters in a `Backend` structure.
Floating point widths are modelled as rationals.
-/

set_option autoImplicit false

namespace Minikin

/-- Synthetic style adjustments carried by a `FakedFont` (fake bold / italic). -/
structure FontFakery where
  fakeBold : Bool
  fakeItalic : Bool
deriving DecidableEq

/-- An external font object, identified by value. -/
structure MinikinFont where
  fontId : Nat
deriving DecidableEq

/-- Modelled from the spec: `FakedFont` (declared in the external
`FontCollection.h`, not among the given sources) is a concrete font plus
synthetic style adjustments; equality is value equality on that pair. -/
structure FakedFont where
  font : MinikinFont
  fakery : FontFakery
deriving DecidableEq

/-- Opaque style attributes passed to layout calls. -/
structure FontStyle where
  styleBits : Nat
deriving DecidableEq

/-- Opaque paint attributes passed to layout calls. -/
structure MinikinPaint where
  paintBits : Nat
deriving DecidableEq

/-- An external font collection, compared by identity. -/
structure FontCollection where
  collId : Nat
deriving DecidableEq

/-- `LayoutGlyph` from `Layout.h` lines 50-61: `font_ix` indexes the owning
`Layout`'s face table; `glyph_id`, `x`, `y` describe the positioned glyph. -/
structure LayoutGlyph where
  font_ix : Nat
  glyph_id : Nat
  x : ℚ
  y : ℚ
deriving DecidableEq

/-- A bounding rectangle (the external `MinikinRect`). -/
structure MinikinRect where
  mLeft : ℚ
  mTop : ℚ
  mRight : ℚ
  mBottom : ℚ
deriving DecidableEq

/-- The empty rectangle produced by `MinikinRect::setEmpty`. -/
def MinikinRect.empty : MinikinRect := ⟨0, 0, 0, 0⟩

/-- A rectangle is empty when it has no extent. -/
def MinikinRect.isEmpty (r : MinikinRect) : Bool :=
  r.mLeft == r.mRight && r.mTop == r.mBottom

/-- Horizontal translation of a rectangle. -/
def MinikinRect.offsetX (r : MinikinRect) (dx : ℚ) : MinikinRect :=
  ⟨r.mLeft + dx, r.mTop, r.mRight + dx, r.mBottom⟩

/-- Union of two bounding rectangles, ignoring empty ones. -/
def MinikinRect.join (r s : MinikinRect) : MinikinRect :=
  if r.isEmpty then s
  else if s.isEmpty then r
  else ⟨min r.mLeft s.mLeft, min r.mTop s.mTop,
        max r.mRight s.mRight, max r.mBottom s.mBottom⟩

/-- The `Layout` object state, fields as declared in `Layout.h` lines
176-184: glyph list, per-code-unit advances, borrowed font collection,
face table, total advance, bounds, and the obfuscation codebook
(a nullable `uint32_t*` table with its size). -/
structure Layout where
  mGlyphs : List LayoutGlyph
  mAdvances : List ℚ
  mCollection : Option FontCollection
  mFaces : List FakedFont
  mAdvance : ℚ
  mBounds : MinikinRect
  mGlyphCodebook : Option (List Nat)
  mCodebookSize : Nat
deriving DecidableEq

/-- The `Layout()` constructor, `Layout.h` lines 85-88: empty glyphs,
advances and faces, null collection, zero advance, empty bounds, null
codebook of size 0. -/
def newLayout : Layout :=
  ⟨[], [], none, [], 0, MinikinRect.empty, none, 0⟩

/-- Modelled from the spec: `reset()` (body not among the given sources)
clears the instance for reuse: glyph list, advances and face table are
cleared together, the total advance and bounds are zeroed; the bound
font collection survives for reuse. -/
def Layout.reset (l : Layout) : Layout :=
  { l with mGlyphs := [], mAdvances := [], mFaces := [],
           mAdvance := 0, mBounds := MinikinRect.empty }

/-- `setFontCollection` binds a borrowed collection. -/
def Layout.setFontCollection (l : Layout) (c : Option FontCollection) : Layout :=
  { l with mCollection := c }

/-- Modelled from the spec: accessor `nGlyphs()` (body not among the given
sources) returns the glyph count. -/
def Layout.nGlyphs (l : Layout) : Nat := l.mGlyphs.length

/-- Modelled from the spec: accessor `getAdvance()` returns the total
advance. -/
def Layout.getAdvance (l : Layout) : ℚ := l.mAdvance

/-- Modelled from the spec: `getAdvances` copies the advances array out. -/
def Layout.getAdvances (l : Layout) : List ℚ := l.mAdvances

/-- `getCharAdvance` from `Layout.h` line 128: `return mAdvances[i];` with
no bounds check; the indexing is embedded as `Option`-valued so the
out-of-range branch is visible. -/
def Layout.getCharAdvance (l : Layout) (i : Nat) : Option ℚ :=
  l.mAdvances[i]?

/-- Modelled from the spec: accessor `getBounds` returns the bounding
rectangle. -/
def Layout.getBounds (l : Layout) : MinikinRect := l.mBounds

/-- Modelled from the spec: accessor `getGlyphCodebook()` returns the
codebook table pointer (null = `none`). -/
def Layout.getGlyphCodebook (l : Layout) : Option (List Nat) := l.mGlyphCodebook

/-- Modelled from the spec: accessor `getCodebookSize()`. -/
def Layout.getCodebookSize (l : Layout) : Nat := l.mCodebookSize

/-- Modelled from the spec: accessor `getGlyphId(i)`. -/
def Layout.getGlyphId (l : Layout) (i : Nat) : Option Nat :=
  (l.mGlyphs[i]?).map LayoutGlyph.glyph_id

/-- Modelled from the spec: the face-table lookup of `findFace`, scanning
`mFaces` for an entry equal by value. -/
def findFaceIdx : List FakedFont → FakedFont → Option Nat
  | [], _ => none
  | g :: gs, f => if g = f then some 0 else (findFaceIdx gs f).map Nat.succ

/-- Modelled from the spec: `findFace` (`Layout.h` line 142, body not among
the given sources): return the index of an existing value-equal entry, or
append a new entry and return its index; the table is append-only. -/
def findFace (faces : List FakedFont) (f : FakedFont) : Nat × List FakedFont :=
  match findFaceIdx faces f with
  | some i => (i, faces)
  | none => (faces.length, faces ++ [f])

/-- Modelled from the spec: remap a source face table into a destination
face table, resolving each source face through `findFace` in order and
recording the resulting destination indices. -/
def remapFaces (faces : List FakedFont) : List FakedFont → List Nat × List FakedFont
  | [] => ([], faces)
  | f :: fs =>
    let r := findFace faces f
    let rest := remapFaces r.2 fs
    (r.1 :: rest.1, rest.2)

/-- Modelled from the spec: one memoized shaped-word result (a word-cache
entry): a glyph list whose `font_ix` values are local to the entry's own
`faces` table, per-code-unit advances, the word's total width and bounds. -/
structure ShapedWord where
  faces : List FakedFont
  glyphs : List LayoutGlyph
  advances : List ℚ
  advance : ℚ
  bounds : MinikinRect
deriving DecidableEq

/-- Overwrite a slice of `dst` starting at `off` with `src`, never growing
`dst` (the in-bounds writes `mAdvances[start + i] = ...` of the merge). -/
def writeAt (dst : List ℚ) (off : Nat) (src : List ℚ) : List ℚ :=
  dst.take off ++ src.take (dst.length - off) ++ dst.drop (off + src.length)

/-- Modelled from the spec: position a shaped word's glyphs at pen offset
`x0`, remapping each glyph's `font_ix` through the destination index map. -/
def placeGlyphs (rm : List Nat) (x0 : ℚ) (gs : List LayoutGlyph) : List LayoutGlyph :=
  gs.map (fun g => ⟨rm.getD g.font_ix 0, g.glyph_id, x0 + g.x, g.y⟩)

/-- Modelled from the spec: `appendLayout` (`Layout.h` line 172, body not
among the given sources): copy a shaped word (for example, a cached value)
into this layout, remapping face indices through the destination face
table, translating glyph x by the current pen position, writing the word's
advances at its destination offset, growing total advance and bounds. -/
def Layout.appendLayout (dst : Layout) (src : ShapedWord) (dstOff : Nat) : Layout :=
  let rm := remapFaces dst.mFaces src.faces
  { dst with
    mFaces := rm.2
    mGlyphs := dst.mGlyphs ++ placeGlyphs rm.1 dst.mAdvance src.glyphs
    mAdvances := writeAt dst.mAdvances dstOff src.advances
    mAdvance := dst.mAdvance + src.advance
    mBounds := dst.mBounds.join (src.bounds.offsetX dst.mAdvance) }

/-- Modelled from the spec: a word-cache key: code-unit slice content,
direction, style, paint, font-collection identity, and the encrypted-mode
flag (so the obfuscated path never collides with the plain path). -/
structure WordKey where
  text : List Nat
  isRtl : Bool
  style : FontStyle
  paint : MinikinPaint
  collection : Option FontCollection
  encrypted : Bool
deriving DecidableEq

/-- The process-wide word cache, as an association list. -/
abbrev WordCache := List (WordKey × ShapedWord)

/-- Cache lookup. -/
def lookupWord : WordCache → WordKey → Option ShapedWord
  | [], _ => none
  | (k, e) :: c, k' => if k = k' then some e else lookupWord c k'

/-- Modelled from the spec: cached shaping of one word under a valuation
`val` (the shaping semantics for the key): on hit return the cached entry
unchanged, on miss compute, insert, and return the new entry. -/
def shapeWordCached (val : WordKey → ShapedWord) (c : WordCache) (k : WordKey) :
    ShapedWord × WordCache :=
  match lookupWord c k with
  | some e => (e, c)
  | none => (val k, (k, val k) :: c)

/-- One direction-homogeneous bidi run. -/
structure BidiRun where
  runStart : Nat
  runLength : Nat
  isRtl : Bool

/-- The external collaborators, out of scope of the repository: the
shaping engine (per word key), the bidi segmenter (bidiFlags, buffer,
start, count, bufSize → visual-order runs) and the word breaker
(buffer, run start, run length, direction → word spans). -/
structure Backend where
  shape : WordKey → ShapedWord
  bidiRuns : Nat → List Nat → Nat → Nat → Nat → List BidiRun
  wordSpans : List Nat → Nat → Nat → Bool → List (Nat × Nat)

/-- The code-unit content of a window of the buffer, clamped to
`[0, bufSize)`. -/
def window (buf : List Nat) (bufSize s n : Nat) : List Nat :=
  ((buf.take bufSize).drop s).take n

/-- Modelled from the spec: the per-run word loop of `doLayoutRunCached`:
for each word span build the cache key, shape through the cache, and
append the shaped word into the destination layout at its offset. -/
def doLayoutWords (b : Backend) (buf : List Nat) (bufSize start : Nat) (isRtl : Bool)
    (style : FontStyle) (paint : MinikinPaint) (coll : Option FontCollection) :
    List (Nat × Nat) → Layout → WordCache → Layout × WordCache
  | [], l, c => (l, c)
  | w :: rest, l, c =>
    let k : WordKey := ⟨window buf bufSize w.1 w.2, isRtl, style, paint, coll, false⟩
    let r := shapeWordCached b.shape c k
    doLayoutWords b buf bufSize start isRtl style paint coll rest
      (l.appendLayout r.1 (w.1 - start)) r.2

/-- Modelled from the spec: the run loop of `doLayout`: process the bidi
runs strictly in visual order, each through the word loop. -/
def doLayoutRuns (b : Backend) (buf : List Nat) (bufSize start : Nat)
    (style : FontStyle) (paint : MinikinPaint) (coll : Option FontCollection) :
    List BidiRun → Layout → WordCache → Layout × WordCache
  | [], l, c => (l, c)
  | r :: rs, l, c =>
    let p := doLayoutWords b buf bufSize start r.isRtl style paint coll
      (b.wordSpans buf r.runStart r.runLength r.isRtl) l c
    doLayoutRuns b buf bufSize start style paint coll rs p.1 p.2

/-- Modelled from the spec: `doLayout` (`Layout.h` lines 96-97, body not
among the given sources): size the advances array to `count`, segment the
window into visual-order bidi runs, and merge each run's shaped words into
this layout through the shared word cache. -/
def Layout.doLayout (l : Layout) (b : Backend) (buf : List Nat)
    (start count bufSize : Nat) (bidiFlags : Nat)
    (style : FontStyle) (paint : MinikinPaint) (c : WordCache) : Layout × WordCache :=
  doLayoutRuns b buf bufSize start style paint l.mCollection
    (b.bidiRuns bidiFlags buf start count bufSize)
    { l with mAdvances := List.replicate count 0 } c

/-- Modelled from the spec: the measurement word loop — the same
segmentation/cache/shape pipeline as `doLayoutWords`, but writing only the
per-code-unit advances and accumulating the total width. -/
def measureWords (b : Backend) (buf : List Nat) (bufSize start : Nat) (isRtl : Bool)
    (style : FontStyle) (paint : MinikinPaint) (coll : Option FontCollection) :
    List (Nat × Nat) → List ℚ × ℚ → WordCache → (List ℚ × ℚ) × WordCache
  | [], acc, c => (acc, c)
  | w :: rest, acc, c =>
    let k : WordKey := ⟨window buf bufSize w.1 w.2, isRtl, style, paint, coll, false⟩
    let r := shapeWordCached b.shape c k
    measureWords b buf bufSize start isRtl style paint coll rest
      (writeAt acc.1 (w.1 - start) r.1.advances, acc.2 + r.1.advance) r.2

/-- Modelled from the spec: the measurement run loop. -/
def measureRuns (b : Backend) (buf : List Nat) (bufSize start : Nat)
    (style : FontStyle) (paint : MinikinPaint) (coll : Option FontCollection) :
    List BidiRun → List ℚ × ℚ → WordCache → (List ℚ × ℚ) × WordCache
  | [], acc, c => (acc, c)
  | r :: rs, acc, c =>
    let p := measureWords b buf bufSize start r.isRtl style paint coll
      (b.wordSpans buf r.runStart r.runLength r.isRtl) acc c
    measureRuns b buf bufSize start style paint coll rs p.1 p.2

/-- Modelled from the spec: static `measureText` (`Layout.h` lines
102-104, body not among the given sources): run the same pipeline over a
caller-supplied collection, fill the advances output (sized `count`) and
return the total advance, retaining no instance state. -/
def measureText (b : Backend) (buf : List Nat) (start count bufSize : Nat)
    (bidiFlags : Nat) (style : FontStyle) (paint : MinikinPaint)
    (coll : Option FontCollection) (c : WordCache) : (ℚ × List ℚ) × WordCache :=
  let p := measureRuns b buf bufSize start style paint coll
    (b.bidiRuns bidiFlags buf start count bufSize)
    (List.replicate count 0, 0) c
  ((p.1.2, p.1.1), p.2)

/-- Modelled from the spec: substitution of one glyph identifier through
the obfuscation codebook table. -/
def encGlyph (cb : List Nat) (g : LayoutGlyph) : LayoutGlyph :=
  { g with glyph_id := cb.getD g.glyph_id 0 }

/-- Modelled from the spec: the obfuscated-path word result — the same
shaped word with every glyph identifier mapped through the codebook; the
advances, width, bounds and local face table are unchanged so that
rendering width is indistinguishable from the real text. -/
def encryptWord (cb : List Nat) (e : ShapedWord) : ShapedWord :=
  { e with glyphs := e.glyphs.map (encGlyph cb) }

/-- Modelled from the spec: the obfuscated-path shaping semantics for a
key carrying the encrypted-mode flag: shape the plain key and substitute
glyph ids through the codebook. -/
def encShape (b : Backend) (cb : List Nat) (k : WordKey) : ShapedWord :=
  encryptWord cb (b.shape { k with encrypted := false })

/-- Modelled from the spec: the per-run word loop of the obfuscated path
(`doEncryptedLayoutRunCached`): identical to the plain loop but the cache
key carries `encrypted := true` and the word result is the codebook
substitution of the plain shaping. -/
def doEncLayoutWords (b : Backend) (cb : List Nat) (buf : List Nat)
    (bufSize start : Nat) (isRtl : Bool)
    (style : FontStyle) (paint : MinikinPaint) (coll : Option FontCollection) :
    List (Nat × Nat) → Layout → WordCache → Layout × WordCache
  | [], l, c => (l, c)
  | w :: rest, l, c =>
    let k : WordKey := ⟨window buf bufSize w.1 w.2, isRtl, style, paint, coll, true⟩
    let r := shapeWordCached (encShape b cb) c k
    doEncLayoutWords b cb buf bufSize start isRtl style paint coll rest
      (l.appendLayout r.1 (w.1 - start)) r.2

/-- Modelled from the spec: the run loop of the obfuscated path. -/
def doEncLayoutRuns (b : Backend) (cb : List Nat) (buf : List Nat)
    (bufSize start : Nat)
    (style : FontStyle) (paint : MinikinPaint) (coll : Option FontCollection) :
    List BidiRun → Layout → WordCache → Layout × WordCache
  | [], l, c => (l, c)
  | r :: rs, l, c =>
    let p := doEncLayoutWords b cb buf bufSize start r.isRtl style paint coll
      (b.wordSpans buf r.runStart r.runLength r.isRtl) l c
    doEncLayoutRuns b cb buf bufSize start style paint coll rs p.1 p.2

/-- Modelled from the spec: `doEncryptedLayout` (`Layout.h` lines 99-100,
body not among the given sources): same skeleton as `doLayout` with the
obfuscated per-word stage; records the injectable codebook table and its
size on the instance for the read-only accessors. -/
def Layout.doEncryptedLayout (l : Layout) (b : Backend) (cb : List Nat)
    (buf : List Nat) (start count bufSize : Nat) (bidiFlags : Nat)
    (style : FontStyle) (paint : MinikinPaint) (c : WordCache) : Layout × WordCache :=
  doEncLayoutRuns b cb buf bufSize start style paint l.mCollection
    (b.bidiRuns bidiFlags buf start count bufSize)
    { l with mAdvances := List.replicate count 0,
             mGlyphCodebook := some cb, mCodebookSize := cb.length } c

/-- A cluster of code units that shape together: its code-unit size and
the whole cluster's advance. -/
structure GlyphCluster where
  size : Nat
  advance : ℚ
deriving DecidableEq

/-- Modelled from the spec: the per-code-unit advances of a sequence of
clusters — the cluster-leading unit carries the cluster's advance, every
trailing unit carries zero. -/
def clusterAdvances : List GlyphCluster → List ℚ
  | [] => []
  | cl :: cs => (cl.advance :: List.replicate (cl.size - 1) 0) ++ clusterAdvances cs

/-- The advance-slot index at which cluster `i` starts. -/
def clusterStart (cs : List GlyphCluster) (i : Nat) : Nat :=
  ((cs.take i).map GlyphCluster.size).sum

/-- A demonstration face for concrete instantiations. -/
def demoFace : FakedFont := ⟨⟨0⟩, ⟨false, false⟩⟩

/-- A deterministic demonstration shaping engine: one glyph per code unit
(the glyph id is the code unit), unit advances. -/
def demoShape (k : WordKey) : ShapedWord :=
  { faces := [demoFace]
    glyphs := k.text.map (fun cu => ⟨0, cu, 0, 0⟩)
    advances := k.text.map (fun _ => 1)
    advance := (k.text.length : ℚ)
    bounds := ⟨0, 0, (k.text.length : ℚ), 1⟩ }

/-- A demonstration backend: the whole window is one LTR run and one word,
shaped by `demoShape`. -/
def demoBackend : Backend :=
  { shape := demoShape
    bidiRuns := fun _ _ s n _ => [⟨s, n, false⟩]
    wordSpans := fun _ rs rl _ => [(rs, rl)] }

/-- A demonstration backend whose shaping treats a two-code-unit word as a
single base-plus-combining-mark cluster of width 3. -/
def markBackend : Backend :=
  { shape := fun _ =>
      { faces := [demoFace], glyphs := [⟨0, 7, 0, 0⟩],
        advances := [3, 0], advance := 3, bounds := ⟨0, 0, 3, 1⟩ }
    bidiRuns := fun _ _ s n _ => [⟨s, n, false⟩]
    wordSpans := fun _ rs rl _ => [(rs, rl)] }

/-- Well-formedness of a shaped word: every glyph's `font_ix` indexes the
entry's own local face table. -/
def ShapedWord.WF (e : ShapedWord) : Prop :=
  ∀ g ∈ e.glyphs, g.font_ix < e.faces.length

/-- The face-index invariant of a `Layout` instance: every glyph's
`font_ix` is a valid index into that same instance's face table. -/
def Layout.FaceInv (l : Layout) : Prop :=
  ∀ g ∈ l.mGlyphs, g.font_ix < l.mFaces.length

/-- A backend is well-formed when every shaped word it produces is. -/
def BackendWF (b : Backend) : Prop :=
  ∀ k, (b.shape k).WF

/-- Every entry of the cache is a well-formed shaped word. -/
def CacheWF (c : WordCache) : Prop :=
  ∀ k e, lookupWord c k = some e → e.WF

/-- The cache agrees with the plain shaping semantics on every plain-mode
key it holds (cache entries are immutable snapshots of shaping results). -/
def PlainCoherent (b : Backend) (c : WordCache) : Prop :=
  ∀ k e, k.encrypted = false → lookupWord c k = some e → e = b.shape k

/-- The cache agrees with the obfuscated shaping semantics on every
encrypted-mode key it holds. -/
def EncCoherent (b : Backend) (cb : List Nat) (c : WordCache) : Prop :=
  ∀ k e, k.encrypted = true → lookupWord c k = some e → e = encShape b cb k

/-- The glyph streams of a plain layout and an obfuscated layout agree
modulo codebook substitution beyond the shared untouched pre-existing
glyphs `pre`. -/
def GlyphsRelAt (cb : List Nat) (pre : List LayoutGlyph) (lp le : Layout) : Prop :=
  ∃ suf, lp.mGlyphs = pre ++ suf ∧ le.mGlyphs = pre ++ suf.map (encGlyph cb)

/-- Erase the codebook fields of a layout (the fields `doLayout` never
reads or writes), for comparing all remaining state. -/
def Layout.clearCodebook (l : Layout) : Layout :=
  { l with mGlyphCodebook := none, mCodebookSize := 0 }

/-! ### Basic lemmas about the slice write and the face table -/

theorem writeAt_length (dst : List ℚ) (off : Nat) (src : List ℚ) :
    (writeAt dst off src).length = dst.length := by
  simp [writeAt]
  omega

theorem writeAt_zero_full (dst src : List ℚ) (h : src.length = dst.length) :
    writeAt dst 0 src = src := by
  unfold writeAt
  rw [Nat.zero_add, Nat.sub_zero, List.take_of_length_le (Nat.le_of_eq h),
    List.drop_eq_nil_of_le (Nat.le_of_eq h.symm)]
  simp

theorem findFaceIdx_get {faces : List FakedFont} {f : FakedFont} {i : Nat}
    (h : findFaceIdx faces f = some i) : faces[i]? = some f := by
  induction faces generalizing i with
  | nil => simp [findFaceIdx] at h
  | cons g gs ih =>
    by_cases hg : g = f
    · simp [findFaceIdx, hg] at h
      subst hg
      simp [← h]
    · simp [findFaceIdx, hg] at h
      obtain ⟨j, hj, hij⟩ := h
      subst hij
      simpa using ih hj

theorem findFaceIdx_none {faces : List FakedFont} {f : FakedFont}
    (h : findFaceIdx faces f = none) : f ∉ faces := by
  induction faces with
  | nil => simp
  | cons g gs ih =>
    by_cases hg : g = f
    · simp [findFaceIdx, hg] at h
    · simp [findFaceIdx, hg] at h
      simp [hg, ih h]
      exact fun hf => hg hf.symm

theorem findFaceIdx_isSome {faces : List FakedFont} {f : FakedFont}
    (h : f ∈ faces) : (findFaceIdx faces f).isSome := by
  induction faces with
  | nil => simp at h
  | cons g gs ih =>
    by_cases hg : g = f
    · simp [findFaceIdx, hg]
    · have : f ∈ gs := by
        rcases List.mem_cons.mp h with h1 | h1
        · exact absurd h1.symm hg
        · exact h1
      simp [findFaceIdx, hg]
      rcases Option.isSome_iff_exists.mp (ih this) with ⟨j, hj⟩
      simp [hj]

theorem findFace_extend (faces : List FakedFont) (f : FakedFont) :
    ∃ t, (findFace faces f).2 = faces ++ t := by
  unfold findFace
  cases h : findFaceIdx faces f with
  | some i => exact ⟨[], by simp⟩
  | none => exact ⟨[f], rfl⟩

theorem findFace_get (faces : List FakedFont) (f : FakedFont) :
    ((findFace faces f).2)[(findFace faces f).1]? = some f := by
  unfold findFace
  cases h : findFaceIdx faces f with
  | some i => simpa using findFaceIdx_get h
  | none =>
    simp only
    rw [List.getElem?_append_right (Nat.le_refl faces.length)]
    simp

theorem findFace_lt (faces : List FakedFont) (f : FakedFont) :
    (findFace faces f).1 < (findFace faces f).2.length := by
  have h := findFace_get faces f
  rcases List.getElem?_eq_some.mp h with ⟨hlt, _⟩
  exact hlt

theorem findFace_mem_unchanged (faces : List FakedFont) (f : FakedFont)
    (h : f ∈ faces) : (findFace faces f).2 = faces := by
  unfold findFace
  cases hh : findFaceIdx faces f with
  | some i => rfl
  | none => exact absurd (findFaceIdx_none hh) (not_not_intro h)

theorem findFace_not_mem (faces : List FakedFont) (f : FakedFont)
    (h : f ∉ faces) :
    (findFace faces f).2 = faces ++ [f] ∧ (findFace faces f).1 = faces.length := by
  unfold findFace
  cases hh : findFaceIdx faces f with
  | some i =>
    rcases List.getElem?_eq_some.mp (findFaceIdx_get hh) with ⟨hlt, heq⟩
    exact absurd (heq ▸ List.getElem_mem hlt) h
  | none => exact ⟨rfl, rfl⟩

theorem remapFaces_length (faces fs : List FakedFont) :
    (remapFaces faces fs).1.length = fs.length := by
  induction fs generalizing faces with
  | nil => rfl
  | cons f rest ih => simp [remapFaces, ih]

theorem remapFaces_extend (faces fs : List FakedFont) :
    ∃ t, (remapFaces faces fs).2 = faces ++ t := by
  induction fs generalizing faces with
  | nil => exact ⟨[], by simp [remapFaces]⟩
  | cons f rest ih =>
    obtain ⟨t1, h1⟩ := findFace_extend faces f
    obtain ⟨t2, h2⟩ := ih (findFace faces f).2
    refine ⟨t1 ++ t2, ?_⟩
    simp only [remapFaces]
    rw [h2, h1, List.append_assoc]

theorem remapFaces_lt (faces fs : List FakedFont) :
    ∀ i ∈ (remapFaces faces fs).1, i < (remapFaces faces fs).2.length := by
  induction fs generalizing faces with
  | nil => simp [remapFaces]
  | cons f rest ih =>
    intro i hi
    simp only [remapFaces, List.mem_cons] at hi ⊢
    rcases hi with hi | hi
    · subst hi
      obtain ⟨t, ht⟩ := remapFaces_extend (findFace faces f).2 rest
      calc (findFace faces f).1 < (findFace faces f).2.length := findFace_lt faces f
        _ ≤ (remapFaces (findFace faces f).2 rest).2.length := by
            simp [ht]
    · exact ih (findFace faces f).2 i hi

theorem getD_lt_of_forall {l : List Nat} {n bound : Nat}
    (h : ∀ x ∈ l, x < bound) (hn : n < l.length) : l.getD n 0 < bound := by
  rw [List.getD_eq_getElem l 0 hn]
  exact h _ (List.getElem_mem hn)

/-! ### Lemmas about `appendLayout` -/

theorem appendLayout_mAdvances (dst : Layout) (src : ShapedWord) (off : Nat) :
    (dst.appendLayout src off).mAdvances = writeAt dst.mAdvances off src.advances := rfl

theorem appendLayout_mAdvance (dst : Layout) (src : ShapedWord) (off : Nat) :
    (dst.appendLayout src off).mAdvance = dst.mAdvance + src.advance := rfl

theorem appendLayout_mCollection (dst : Layout) (src : ShapedWord) (off : Nat) :
    (dst.appendLayout src off).mCollection = dst.mCollection := rfl

theorem appendLayout_mGlyphCodebook (dst : Layout) (src : ShapedWord) (off : Nat) :
    (dst.appendLayout src off).mGlyphCodebook = dst.mGlyphCodebook := rfl

theorem appendLayout_clearCodebook (dst : Layout) (src : ShapedWord) (off : Nat) :
    (Layout.clearCodebook dst).appendLayout src off
      = Layout.clearCodebook (dst.appendLayout src off) := by
  cases dst
  rfl

theorem appendLayout_FaceInv {dst : Layout} {src : ShapedWord} {off : Nat}
    (hd : dst.FaceInv) (hs : src.WF) : (dst.appendLayout src off).FaceInv := by
  intro g hg
  simp only [Layout.appendLayout, List.mem_append] at hg ⊢
  rcases hg with hg | hg
  · obtain ⟨t, ht⟩ := remapFaces_extend dst.mFaces src.faces
    have h1 := hd g hg
    rw [ht, List.length_append]
    omega
  · obtain ⟨g0, hg0, hgeq⟩ := List.mem_map.mp hg
    have hlen : g0.font_ix < (remapFaces dst.mFaces src.faces).1.length := by
      rw [remapFaces_length]
      exact hs g0 hg0
    have := getD_lt_of_forall (remapFaces_lt dst.mFaces src.faces) hlen
    rw [← hgeq]
    exact this

/-! ### The advances array always has length `count` -/

theorem doLayoutWords_adv_length (b : Backend) (buf : List Nat)
    (bufSize start : Nat) (isRtl : Bool) (style : FontStyle)
    (paint : MinikinPaint) (coll : Option FontCollection) :
    ∀ (ws : List (Nat × Nat)) (l : Layout) (c : WordCache),
      ((doLayoutWords b buf bufSize start isRtl style paint coll ws l c).1).mAdvances.length
        = l.mAdvances.length := by
  intro ws
  induction ws with
  | nil => intro l c; rfl
  | cons w rest ih =>
    intro l c
    simp only [doLayoutWords]
    rw [ih]
    rw [appendLayout_mAdvances, writeAt_length]

theorem doLayoutRuns_adv_length (b : Backend) (buf : List Nat)
    (bufSize start : Nat) (style : FontStyle)
    (paint : MinikinPaint) (coll : Option FontCollection) :
    ∀ (rs : List BidiRun) (l : Layout) (c : WordCache),
      ((doLayoutRuns b buf bufSize start style paint coll rs l c).1).mAdvances.length
        = l.mAdvances.length := by
  intro rs
  induction rs with
  | nil => intro l c; rfl
  | cons r rest ih =>
    intro l c
    simp only [doLayoutRuns]
    rw [ih, doLayoutWords_adv_length]

theorem doLayout_adv_length (l : Layout) (b : Backend) (buf : List Nat)
    (start count bufSize bidiFlags : Nat) (style : FontStyle)
    (paint : MinikinPaint) (c : WordCache) :
    ((l.doLayout b buf start count bufSize bidiFlags style paint c).1).mAdvances.length
      = count := by
  unfold Layout.doLayout
  rw [doLayoutRuns_adv_length]
  simp

/-! ### Cache coherence: hits reproduce what a miss would compute -/

theorem lookupWord_cons (k : WordKey) (e : ShapedWord) (c : WordCache) (k' : WordKey) :
    lookupWord ((k, e) :: c) k' = if k = k' then some e else lookupWord c k' := rfl

theorem shapeWordCached_plain {b : Backend} {c : WordCache} {k : WordKey}
    (hk : k.encrypted = false) (hc : PlainCoherent b c) :
    (shapeWordCached b.shape c k).1 = b.shape k
      ∧ PlainCoherent b (shapeWordCached b.shape c k).2 := by
  unfold shapeWordCached
  cases h : lookupWord c k with
  | some e => exact ⟨(hc k e hk h).symm ▸ rfl, hc⟩
  | none =>
    refine ⟨rfl, ?_⟩
    intro k' e' hk' h'
    rw [lookupWord_cons] at h'
    by_cases hkk : k = k'
    · subst hkk
      simp at h'
      exact h'.symm
    · rw [if_neg hkk] at h'
      exact hc k' e' hk' h'

theorem shapeWordCached_enc {b : Backend} {cb : List Nat} {c : WordCache} {k : WordKey}
    (hk : k.encrypted = true) (hc : EncCoherent b cb c) :
    (shapeWordCached (encShape b cb) c k).1 = encShape b cb k
      ∧ EncCoherent b cb (shapeWordCached (encShape b cb) c k).2 := by
  unfold shapeWordCached
  cases h : lookupWord c k with
  | some e => exact ⟨(hc k e hk h).symm ▸ rfl, hc⟩
  | none =>
    refine ⟨rfl, ?_⟩
    intro k' e' hk' h'
    rw [lookupWord_cons] at h'
    by_cases hkk : k = k'
    · subst hkk
      simp at h'
      exact h'.symm
    · rw [if_neg hkk] at h'
      exact hc k' e' hk' h'

theorem doLayoutWords_coherent (b : Backend) (buf : List Nat)
    (bufSize start : Nat) (isRtl : Bool) (style : FontStyle)
    (paint : MinikinPaint) (coll : Option FontCollection) :
    ∀ (ws : List (Nat × Nat)) (l : Layout) (c c' : WordCache),
      PlainCoherent b c → PlainCoherent b c' →
      (doLayoutWords b buf bufSize start isRtl style paint coll ws l c).1
        = (doLayoutWords b buf bufSize start isRtl style paint coll ws l c').1
      ∧ PlainCoherent b (doLayoutWords b buf bufSize start isRtl style paint coll ws l c).2 := by
  intro ws
  induction ws with
  | nil => exact fun l c c' hc _ => ⟨rfl, hc⟩
  | cons w rest ih =>
    intro l c c' hc hc'
    simp only [doLayoutWords]
    obtain ⟨he, hcoh⟩ := shapeWordCached_plain (b := b) (c := c)
      (k := ⟨window buf bufSize w.1 w.2, isRtl, style, paint, coll, false⟩) rfl hc
    obtain ⟨he', hcoh'⟩ := shapeWordCached_plain (b := b) (c := c')
      (k := ⟨window buf bufSize w.1 w.2, isRtl, style, paint, coll, false⟩) rfl hc'
    rw [he, he']
    exact ih _ _ _ hcoh hcoh'

theorem doLayoutRuns_coherent (b : Backend) (buf : List Nat)
    (bufSize start : Nat) (style : FontStyle)
    (paint : MinikinPaint) (coll : Option FontCollection) :
    ∀ (rs : List BidiRun) (l : Layout) (c c' : WordCache),
      PlainCoherent b c → PlainCoherent b c' →
      (doLayoutRuns b buf bufSize start style paint coll rs l c).1
        = (doLayoutRuns b buf bufSize start style paint coll rs l c').1
      ∧ PlainCoherent b (doLayoutRuns b buf bufSize start style paint coll rs l c).2 := by
  intro rs
  induction rs with
  | nil => exact fun l c c' hc _ => ⟨rfl, hc⟩
  | cons r rest ih =>
    intro l c c' hc hc'
    simp only [doLayoutRuns]
    obtain ⟨he, hcoh⟩ := doLayoutWords_coherent b buf bufSize start r.isRtl style paint coll
      (b.wordSpans buf r.runStart r.runLength r.isRtl) l c c' hc hc'
    obtain ⟨he2, hcoh'⟩ := doLayoutWords_coherent b buf bufSize start r.isRtl style paint coll
      (b.wordSpans buf r.runStart r.runLength r.isRtl) l c' c hc' hc
    rw [he]
    exact ih _ _ _ hcoh hcoh'

theorem doLayout_coherent (l : Layout) (b : Backend) (buf : List Nat)
    (start count bufSize bidiFlags : Nat) (style : FontStyle)
    (paint : MinikinPaint) (c c' : WordCache)
    (hc : PlainCoherent b c) (hc' : PlainCoherent b c') :
    (l.doLayout b buf start count bufSize bidiFlags style paint c).1
      = (l.doLayout b buf start count bufSize bidiFlags style paint c').1
    ∧ PlainCoherent b (l.doLayout b buf start count bufSize bidiFlags style paint c).2 := by
  unfold Layout.doLayout
  exact doLayoutRuns_coherent b buf bufSize start style paint l.mCollection _ _ c c' hc hc'

/-! ### `measureText` computes the same advances as `doLayout` -/

theorem measureWords_sim (b : Backend) (buf : List Nat)
    (bufSize start : Nat) (isRtl : Bool) (style : FontStyle)
    (paint : MinikinPaint) (coll : Option FontCollection) :
    ∀ (ws : List (Nat × Nat)) (l : Layout) (c : WordCache) (t : ℚ),
      (measureWords b buf bufSize start isRtl style paint coll ws (l.mAdvances, t) c).1.1
        = (doLayoutWords b buf bufSize start isRtl style paint coll ws l c).1.mAdvances
      ∧ l.mAdvance
          + (measureWords b buf bufSize start isRtl style paint coll ws (l.mAdvances, t) c).1.2
        = (doLayoutWords b buf bufSize start isRtl style paint coll ws l c).1.mAdvance + t
      ∧ (measureWords b buf bufSize start isRtl style paint coll ws (l.mAdvances, t) c).2
        = (doLayoutWords b buf bufSize start isRtl style paint coll ws l c).2 := by
  intro ws
  induction ws with
  | nil => exact fun l c t => ⟨rfl, rfl, rfl⟩
  | cons w rest ih =>
    intro l c t
    simp only [doLayoutWords, measureWords]
    obtain ⟨ih1, ih2, ih3⟩ := ih
      (l.appendLayout (shapeWordCached b.shape c
        ⟨window buf bufSize w.1 w.2, isRtl, style, paint, coll, false⟩).1 (w.1 - start))
      (shapeWordCached b.shape c
        ⟨window buf bufSize w.1 w.2, isRtl, style, paint, coll, false⟩).2
      (t + (shapeWordCached b.shape c
        ⟨window buf bufSize w.1 w.2, isRtl, style, paint, coll, false⟩).1.advance)
    refine ⟨ih1, ?_, ih3⟩
    rw [appendLayout_mAdvance, appendLayout_mAdvances] at ih2
    linarith

theorem measureRuns_sim (b : Backend) (buf : List Nat)
    (bufSize start : Nat) (style : FontStyle)
    (paint : MinikinPaint) (coll : Option FontCollection) :
    ∀ (rs : List BidiRun) (l : Layout) (c : WordCache) (t : ℚ),
      (measureRuns b buf bufSize start style paint coll rs (l.mAdvances, t) c).1.1
        = (doLayoutRuns b buf bufSize start style paint coll rs l c).1.mAdvances
      ∧ l.mAdvance
          + (measureRuns b buf bufSize start style paint coll rs (l.mAdvances, t) c).1.2
        = (doLayoutRuns b buf bufSize start style paint coll rs l c).1.mAdvance + t
      ∧ (measureRuns b buf bufSize start style paint coll rs (l.mAdvances, t) c).2
        = (doLayoutRuns b buf bufSize start style paint coll rs l c).2 := by
  intro rs
  induction rs with
  | nil => exact fun l c t => ⟨rfl, rfl, rfl⟩
  | cons r rest ih =>
    intro l c t
    simp only [doLayoutRuns, measureRuns]
    obtain ⟨hw1, hw2, hw3⟩ := measureWords_sim b buf bufSize start r.isRtl style paint coll
      (b.wordSpans buf r.runStart r.runLength r.isRtl) l c t
    have hpair : (measureWords b buf bufSize start r.isRtl style paint coll
        (b.wordSpans buf r.runStart r.runLength r.isRtl) (l.mAdvances, t) c).1
        = ((doLayoutWords b buf bufSize start r.isRtl style paint coll
            (b.wordSpans buf r.runStart r.runLength r.isRtl) l c).1.mAdvances,
           (measureWords b buf bufSize start r.isRtl style paint coll
            (b.wordSpans buf r.runStart r.runLength r.isRtl) (l.mAdvances, t) c).1.2) := by
      rw [← hw1]
    rw [hpair, hw3]
    obtain ⟨ih1, ih2, ih3⟩ := ih
      (doLayoutWords b buf bufSize start r.isRtl style paint coll
        (b.wordSpans buf r.runStart r.runLength r.isRtl) l c).1
      (doLayoutWords b buf bufSize start r.isRtl style paint coll
        (b.wordSpans buf r.runStart r.runLength r.isRtl) l c).2
      ((measureWords b buf bufSize start r.isRtl style paint coll
        (b.wordSpans buf r.runStart r.runLength r.isRtl) (l.mAdvances, t) c).1.2)
    refine ⟨ih1, ?_, ih3⟩
    linarith

/-! ### `doLayout` neither reads nor writes the codebook fields -/

theorem doLayoutWords_clearCodebook (b : Backend) (buf : List Nat)
    (bufSize start : Nat) (isRtl : Bool) (style : FontStyle)
    (paint : MinikinPaint) (coll : Option FontCollection) :
    ∀ (ws : List (Nat × Nat)) (l : Layout) (c : WordCache),
      doLayoutWords b buf bufSize start isRtl style paint coll ws (Layout.clearCodebook l) c
        = (Layout.clearCodebook
            (doLayoutWords b buf bufSize start isRtl style paint coll ws l c).1,
           (doLayoutWords b buf bufSize start isRtl style paint coll ws l c).2) := by
  intro ws
  induction ws with
  | nil => exact fun l c => rfl
  | cons w rest ih =>
    intro l c
    simp only [doLayoutWords]
    rw [appendLayout_clearCodebook]
    exact ih _ _

theorem doLayoutRuns_clearCodebook (b : Backend) (buf : List Nat)
    (bufSize start : Nat) (style : FontStyle)
    (paint : MinikinPaint) (coll : Option FontCollection) :
    ∀ (rs : List BidiRun) (l : Layout) (c : WordCache),
      doLayoutRuns b buf bufSize start style paint coll rs (Layout.clearCodebook l) c
        = (Layout.clearCodebook
            (doLayoutRuns b buf bufSize start style paint coll rs l c).1,
           (doLayoutRuns b buf bufSize start style paint coll rs l c).2) := by
  intro rs
  induction rs with
  | nil => exact fun l c => rfl
  | cons r rest ih =>
    intro l c
    simp only [doLayoutRuns]
    rw [doLayoutWords_clearCodebook]
    exact ih _ _

theorem doLayout_clearCodebook (l : Layout) (b : Backend) (buf : List Nat)
    (start count bufSize bidiFlags : Nat) (style : FontStyle)
    (paint : MinikinPaint) (c : WordCache) :
    (Layout.clearCodebook l).doLayout b buf start count bufSize bidiFlags style paint c
      = (Layout.clearCodebook
          (l.doLayout b buf start count bufSize bidiFlags style paint c).1,
         (l.doLayout b buf start count bufSize bidiFlags style paint c).2) := by
  cases l with
  | mk g a co f adv bd cb cbs =>
    unfold Layout.doLayout
    have h := doLayoutRuns_clearCodebook b buf bufSize start style paint co
      (b.bidiRuns bidiFlags buf start count bufSize)
      ⟨g, List.replicate count 0, co, f, adv, bd, cb, cbs⟩ c
    simpa [Layout.clearCodebook] using h

/-! ### The face-index invariant is preserved by every operation -/

theorem encryptWord_WF {cb : List Nat} {e : ShapedWord} (h : e.WF) :
    (encryptWord cb e).WF := by
  intro g hg
  obtain ⟨g0, hg0, hgeq⟩ := List.mem_map.mp hg
  rw [← hgeq]
  exact h g0 hg0

theorem shapeWordCached_WF {val : WordKey → ShapedWord} {c : WordCache} {k : WordKey}
    (hv : ∀ k', (val k').WF) (hc : CacheWF c) :
    (shapeWordCached val c k).1.WF ∧ CacheWF (shapeWordCached val c k).2 := by
  unfold shapeWordCached
  cases h : lookupWord c k with
  | some e => exact ⟨hc k e h, hc⟩
  | none =>
    refine ⟨hv k, ?_⟩
    intro k' e' h'
    rw [lookupWord_cons] at h'
    by_cases hkk : k = k'
    · rw [if_pos hkk] at h'
      simp at h'
      rw [← h']
      exact hv k
    · rw [if_neg hkk] at h'
      exact hc k' e' h'

theorem doLayoutWords_WF {b : Backend} (buf : List Nat)
    (bufSize start : Nat) (isRtl : Bool) (style : FontStyle)
    (paint : MinikinPaint) (coll : Option FontCollection) (hb : BackendWF b) :
    ∀ (ws : List (Nat × Nat)) (l : Layout) (c : WordCache),
      CacheWF c → l.FaceInv →
      (doLayoutWords b buf bufSize start isRtl style paint coll ws l c).1.FaceInv
      ∧ CacheWF (doLayoutWords b buf bufSize start isRtl style paint coll ws l c).2 := by
  intro ws
  induction ws with
  | nil => exact fun l c hc hl => ⟨hl, hc⟩
  | cons w rest ih =>
    intro l c hc hl
    simp only [doLayoutWords]
    obtain ⟨hwf, hcwf⟩ := shapeWordCached_WF (c := c)
      (k := ⟨window buf bufSize w.1 w.2, isRtl, style, paint, coll, false⟩) hb hc
    exact ih _ _ hcwf (appendLayout_FaceInv hl hwf)

theorem doLayoutRuns_WF {b : Backend} (buf : List Nat)
    (bufSize start : Nat) (style : FontStyle)
    (paint : MinikinPaint) (coll : Option FontCollection) (hb : BackendWF b) :
    ∀ (rs : List BidiRun) (l : Layout) (c : WordCache),
      CacheWF c → l.FaceInv →
      (doLayoutRuns b buf bufSize start style paint coll rs l c).1.FaceInv
      ∧ CacheWF (doLayoutRuns b buf bufSize start style paint coll rs l c).2 := by
  intro rs
  induction rs with
  | nil => exact fun l c hc hl => ⟨hl, hc⟩
  | cons r rest ih =>
    intro l c hc hl
    simp only [doLayoutRuns]
    obtain ⟨hwf, hcwf⟩ := doLayoutWords_WF buf bufSize start r.isRtl style paint coll hb
      (b.wordSpans buf r.runStart r.runLength r.isRtl) l c hc hl
    exact ih _ _ hcwf hwf

theorem doLayout_WF {b : Backend} (l : Layout) (buf : List Nat)
    (start count bufSize bidiFlags : Nat) (style : FontStyle)
    (paint : MinikinPaint) (c : WordCache)
    (hb : BackendWF b) (hc : CacheWF c) (hl : l.FaceInv) :
    (l.doLayout b buf start count bufSize bidiFlags style paint c).1.FaceInv
    ∧ CacheWF (l.doLayout b buf start count bufSize bidiFlags style paint c).2 := by
  unfold Layout.doLayout
  exact doLayoutRuns_WF buf bufSize start style paint l.mCollection hb _ _ c hc hl

theorem doEncLayoutWords_WF {b : Backend} (cb : List Nat) (buf : List Nat)
    (bufSize start : Nat) (isRtl : Bool) (style : FontStyle)
    (paint : MinikinPaint) (coll : Option FontCollection) (hb : BackendWF b) :
    ∀ (ws : List (Nat × Nat)) (l : Layout) (c : WordCache),
      CacheWF c → l.FaceInv →
      (doEncLayoutWords b cb buf bufSize start isRtl style paint coll ws l c).1.FaceInv
      ∧ CacheWF (doEncLayoutWords b cb buf bufSize start isRtl style paint coll ws l c).2 := by
  intro ws
  induction ws with
  | nil => exact fun l c hc hl => ⟨hl, hc⟩
  | cons w rest ih =>
    intro l c hc hl
    simp only [doEncLayoutWords]
    obtain ⟨hwf, hcwf⟩ := shapeWordCached_WF (c := c)
      (k := ⟨window buf bufSize w.1 w.2, isRtl, style, paint, coll, true⟩)
      (fun k' => encryptWord_WF (hb _)) hc
    exact ih _ _ hcwf (appendLayout_FaceInv hl hwf)

theorem doEncLayoutRuns_WF {b : Backend} (cb : List Nat) (buf : List Nat)
    (bufSize start : Nat) (style : FontStyle)
    (paint : MinikinPaint) (coll : Option FontCollection) (hb : BackendWF b) :
    ∀ (rs : List BidiRun) (l : Layout) (c : WordCache),
      CacheWF c → l.FaceInv →
      (doEncLayoutRuns b cb buf bufSize start style paint coll rs l c).1.FaceInv
      ∧ CacheWF (doEncLayoutRuns b cb buf bufSize start style paint coll rs l c).2 := by
  intro rs
  induction rs with
  | nil => exact fun l c hc hl => ⟨hl, hc⟩
  | cons r rest ih =>
    intro l c hc hl
    simp only [doEncLayoutRuns]
    obtain ⟨hwf, hcwf⟩ := doEncLayoutWords_WF cb buf bufSize start r.isRtl style paint coll hb
      (b.wordSpans buf r.runStart r.runLength r.isRtl) l c hc hl
    exact ih _ _ hcwf hwf

theorem doEncryptedLayout_WF {b : Backend} (l : Layout) (cb : List Nat) (buf : List Nat)
    (start count bufSize bidiFlags : Nat) (style : FontStyle)
    (paint : MinikinPaint) (c : WordCache)
    (hb : BackendWF b) (hc : CacheWF c) (hl : l.FaceInv) :
    (l.doEncryptedLayout b cb buf start count bufSize bidiFlags style paint c).1.FaceInv
    ∧ CacheWF (l.doEncryptedLayout b cb buf start count bufSize bidiFlags style paint c).2 := by
  unfold Layout.doEncryptedLayout
  exact doEncLayoutRuns_WF cb buf bufSize start style paint l.mCollection hb _ _ c hc hl

/-! ### The obfuscated path: same widths, substituted glyph identities -/

theorem placeGlyphs_enc (cb : List Nat) (rm : List Nat) (x0 : ℚ) (gs : List LayoutGlyph) :
    placeGlyphs rm x0 (gs.map (encGlyph cb)) = (placeGlyphs rm x0 gs).map (encGlyph cb) := by
  simp only [placeGlyphs, List.map_map]
  rfl

theorem appendLayout_enc (cb : List Nat) (lp le : Layout) (e : ShapedWord) (off : Nat)
    (hF : le.mFaces = lp.mFaces) (hA : le.mAdvances = lp.mAdvances)
    (hv : le.mAdvance = lp.mAdvance) (hB : le.mBounds = lp.mBounds) :
    (le.appendLayout (encryptWord cb e) off).mFaces = (lp.appendLayout e off).mFaces
    ∧ (le.appendLayout (encryptWord cb e) off).mAdvances = (lp.appendLayout e off).mAdvances
    ∧ (le.appendLayout (encryptWord cb e) off).mAdvance = (lp.appendLayout e off).mAdvance
    ∧ (le.appendLayout (encryptWord cb e) off).mBounds = (lp.appendLayout e off).mBounds
    ∧ (le.appendLayout (encryptWord cb e) off).mGlyphs
        = le.mGlyphs
          ++ (placeGlyphs (remapFaces lp.mFaces e.faces).1 lp.mAdvance e.glyphs).map (encGlyph cb)
    ∧ (lp.appendLayout e off).mGlyphs
        = lp.mGlyphs ++ placeGlyphs (remapFaces lp.mFaces e.faces).1 lp.mAdvance e.glyphs := by
  simp only [Layout.appendLayout, encryptWord]
  rw [hF, hA, hv, hB]
  simp [placeGlyphs_enc]

theorem doEncLayoutWords_rel (b : Backend) (cb : List Nat) (buf : List Nat)
    (bufSize start : Nat) (isRtl : Bool) (style : FontStyle)
    (paint : MinikinPaint) (coll : Option FontCollection) :
    ∀ (ws : List (Nat × Nat)) (pre : List LayoutGlyph) (lp le : Layout)
      (cp ce : WordCache),
      PlainCoherent b cp → EncCoherent b cb ce →
      le.mFaces = lp.mFaces → le.mAdvances = lp.mAdvances →
      le.mAdvance = lp.mAdvance → le.mBounds = lp.mBounds →
      GlyphsRelAt cb pre lp le →
      (doEncLayoutWords b cb buf bufSize start isRtl style paint coll ws le ce).1.mFaces
        = (doLayoutWords b buf bufSize start isRtl style paint coll ws lp cp).1.mFaces
      ∧ (doEncLayoutWords b cb buf bufSize start isRtl style paint coll ws le ce).1.mAdvances
        = (doLayoutWords b buf bufSize start isRtl style paint coll ws lp cp).1.mAdvances
      ∧ (doEncLayoutWords b cb buf bufSize start isRtl style paint coll ws le ce).1.mAdvance
        = (doLayoutWords b buf bufSize start isRtl style paint coll ws lp cp).1.mAdvance
      ∧ (doEncLayoutWords b cb buf bufSize start isRtl style paint coll ws le ce).1.mBounds
        = (doLayoutWords b buf bufSize start isRtl style paint coll ws lp cp).1.mBounds
      ∧ GlyphsRelAt cb pre
          (doLayoutWords b buf bufSize start isRtl style paint coll ws lp cp).1
          (doEncLayoutWords b cb buf bufSize start isRtl style paint coll ws le ce).1
      ∧ PlainCoherent b (doLayoutWords b buf bufSize start isRtl style paint coll ws lp cp).2
      ∧ EncCoherent b cb
          (doEncLayoutWords b cb buf bufSize start isRtl style paint coll ws le ce).2 := by
  intro ws
  induction ws with
  | nil => exact fun pre lp le cp ce hcp hce h1 h2 h3 h4 h5 =>
      ⟨h1.symm ▸ rfl, h2.symm ▸ rfl, h3.symm ▸ rfl, h4.symm ▸ rfl, h5, hcp, hce⟩
  | cons w rest ih =>
    intro pre lp le cp ce hcp hce h1 h2 h3 h4 h5
    simp only [doLayoutWords, doEncLayoutWords]
    obtain ⟨hep, hcp'⟩ := shapeWordCached_plain (b := b) (c := cp)
      (k := ⟨window buf bufSize w.1 w.2, isRtl, style, paint, coll, false⟩) rfl hcp
    obtain ⟨hee, hce'⟩ := shapeWordCached_enc (b := b) (c := ce)
      (k := ⟨window buf bufSize w.1 w.2, isRtl, style, paint, coll, true⟩) rfl hce
    rw [hep, hee]
    have hes : encShape b cb ⟨window buf bufSize w.1 w.2, isRtl, style, paint, coll, true⟩
        = encryptWord cb
            (b.shape ⟨window buf bufSize w.1 w.2, isRtl, style, paint, coll, false⟩) := rfl
    rw [hes]
    obtain ⟨a1, a2, a3, a4, a5, a6⟩ := appendLayout_enc cb lp le
      (b.shape ⟨window buf bufSize w.1 w.2, isRtl, style, paint, coll, false⟩)
      (w.1 - start) h1 h2 h3 h4
    refine ih pre _ _ _ _ hcp' hce' a1 a2 a3 a4 ?_
    obtain ⟨suf, hp, heq⟩ := h5
    refine ⟨suf ++ placeGlyphs
      (remapFaces lp.mFaces
        (b.shape ⟨window buf bufSize w.1 w.2, isRtl, style, paint, coll, false⟩).faces).1
      lp.mAdvance
      (b.shape ⟨window buf bufSize w.1 w.2, isRtl, style, paint, coll, false⟩).glyphs, ?_, ?_⟩
    · rw [a6, hp, List.append_assoc]
    · rw [a5, heq, List.map_append, List.append_assoc]

theorem doEncLayoutRuns_rel (b : Backend) (cb : List Nat) (buf : List Nat)
    (bufSize start : Nat) (style : FontStyle)
    (paint : MinikinPaint) (coll : Option FontCollection) :
    ∀ (rs : List BidiRun) (pre : List LayoutGlyph) (lp le : Layout)
      (cp ce : WordCache),
      PlainCoherent b cp → EncCoherent b cb ce →
      le.mFaces = lp.mFaces → le.mAdvances = lp.mAdvances →
      le.mAdvance = lp.mAdvance → le.mBounds = lp.mBounds →
      GlyphsRelAt cb pre lp le →
      (doEncLayoutRuns b cb buf bufSize start style paint coll rs le ce).1.mFaces
        = (doLayoutRuns b buf bufSize start style paint coll rs lp cp).1.mFaces
      ∧ (doEncLayoutRuns b cb buf bufSize start style paint coll rs le ce).1.mAdvances
        = (doLayoutRuns b buf bufSize start style paint coll rs lp cp).1.mAdvances
      ∧ (doEncLayoutRuns b cb buf bufSize start style paint coll rs le ce).1.mAdvance
        = (doLayoutRuns b buf bufSize start style paint coll rs lp cp).1.mAdvance
      ∧ (doEncLayoutRuns b cb buf bufSize start style paint coll rs le ce).1.mBounds
        = (doLayoutRuns b buf bufSize start style paint coll rs lp cp).1.mBounds
      ∧ GlyphsRelAt cb pre
          (doLayoutRuns b buf bufSize start style paint coll rs lp cp).1
          (doEncLayoutRuns b cb buf bufSize start style paint coll rs le ce).1
      ∧ PlainCoherent b (doLayoutRuns b buf bufSize start style paint coll rs lp cp).2
      ∧ EncCoherent b cb
          (doEncLayoutRuns b cb buf bufSize start style paint coll rs le ce).2 := by
  intro rs
  induction rs with
  | nil => exact fun pre lp le cp ce hcp hce h1 h2 h3 h4 h5 =>
      ⟨h1.symm ▸ rfl, h2.symm ▸ rfl, h3.symm ▸ rfl, h4.symm ▸ rfl, h5, hcp, hce⟩
  | cons r rest ih =>
    intro pre lp le cp ce hcp hce h1 h2 h3 h4 h5
    simp only [doLayoutRuns, doEncLayoutRuns]
    obtain ⟨a1, a2, a3, a4, a5, a6, a7⟩ := doEncLayoutWords_rel b cb buf bufSize start
      r.isRtl style paint coll (b.wordSpans buf r.runStart r.runLength r.isRtl)
      pre lp le cp ce hcp hce h1 h2 h3 h4 h5
    exact ih pre _ _ _ _ a6 a7 a1 a2 a3 a4 a5

theorem doEncryptedLayout_rel (l : Layout) (b : Backend) (cb : List Nat)
    (buf : List Nat) (start count bufSize bidiFlags : Nat) (style : FontStyle)
    (paint : MinikinPaint) (c : WordCache)
    (hcp : PlainCoherent b c) (hce : EncCoherent b cb c) :
    (l.doEncryptedLayout b cb buf start count bufSize bidiFlags style paint c).1.mAdvances
      = (l.doLayout b buf start count bufSize bidiFlags style paint c).1.mAdvances
    ∧ (l.doEncryptedLayout b cb buf start count bufSize bidiFlags style paint c).1.mAdvance
      = (l.doLayout b buf start count bufSize bidiFlags style paint c).1.mAdvance
    ∧ GlyphsRelAt cb l.mGlyphs
        (l.doLayout b buf start count bufSize bidiFlags style paint c).1
        (l.doEncryptedLayout b cb buf start count bufSize bidiFlags style paint c).1 := by
  unfold Layout.doLayout Layout.doEncryptedLayout
  obtain ⟨a1, a2, a3, a4, a5, a6, a7⟩ := doEncLayoutRuns_rel b cb buf bufSize start
    style paint l.mCollection (b.bidiRuns bidiFlags buf start count bufSize)
    l.mGlyphs
    { l with mAdvances := List.replicate count 0 }
    { l with mAdvances := List.replicate count 0,
             mGlyphCodebook := some cb, mCodebookSize := cb.length }
    c c hcp hce rfl rfl rfl rfl ⟨[], by simp, by simp⟩
  exact ⟨a2, a3, a5⟩

/-! ### Cluster structure of the advances array -/

theorem clusterAdvances_length (cs : List GlyphCluster)
    (h : ∀ cc ∈ cs, 1 ≤ cc.size) :
    (clusterAdvances cs).length = (cs.map GlyphCluster.size).sum := by
  induction cs with
  | nil => rfl
  | cons cl rest ih =>
    have h1 : 1 ≤ cl.size := h cl (List.mem_cons_self _ _)
    have h2 := ih (fun cc hc => h cc (List.mem_cons_of_mem _ hc))
    simp only [clusterAdvances, List.length_append, List.length_cons,
      List.length_replicate, List.map_cons, List.sum_cons, h2]
    omega

theorem clusterAdvances_lead (cs : List GlyphCluster)
    (h : ∀ cc ∈ cs, 1 ≤ cc.size) :
    ∀ (i : Nat) (hi : i < cs.length),
      (clusterAdvances cs)[clusterStart cs i]? = some (cs.get ⟨i, hi⟩).advance := by
  induction cs with
  | nil => intro i hi; simp at hi
  | cons cl rest ih =>
    intro i hi
    cases i with
    | zero =>
      simp [clusterAdvances, clusterStart]
    | succ j =>
      have h1 : 1 ≤ cl.size := h cl (List.mem_cons_self _ _)
      have hcs : clusterStart (cl :: rest) (j + 1) = cl.size + clusterStart rest j := by
        simp [clusterStart, List.take_succ_cons]
      have hlen : (cl.advance :: List.replicate (cl.size - 1) (0 : ℚ)).length = cl.size := by
        simp
        omega
      rw [hcs]
      simp only [clusterAdvances]
      rw [List.getElem?_append_right (by rw [hlen]; omega)]
      rw [hlen, Nat.add_sub_cancel_left]
      exact ih (fun cc hc => h cc (List.mem_cons_of_mem _ hc)) j (Nat.lt_of_succ_lt_succ hi)

theorem clusterAdvances_trail (cs : List GlyphCluster)
    (h : ∀ cc ∈ cs, 1 ≤ cc.size) :
    ∀ (i : Nat) (hi : i < cs.length) (j : Nat), 1 ≤ j → j < (cs.get ⟨i, hi⟩).size →
      (clusterAdvances cs)[clusterStart cs i + j]? = some 0 := by
  induction cs with
  | nil => intro i hi; simp at hi
  | cons cl rest ih =>
    intro i hi j hj1 hj2
    cases i with
    | zero =>
      have hsz : j < cl.size := hj2
      have hlen : (cl.advance :: List.replicate (cl.size - 1) (0 : ℚ)).length = cl.size := by
        have h1 : 1 ≤ cl.size := h cl (List.mem_cons_self _ _)
        simp
        omega
      have hstart : clusterStart (cl :: rest) 0 + j = j := by
        simp [clusterStart]
      rw [hstart]
      simp only [clusterAdvances]
      rw [List.getElem?_append_left (by rw [hlen]; omega)]
      cases j with
      | zero => omega
      | succ j' =>
        rw [List.getElem?_cons_succ]
        have : j' < cl.size - 1 := by omega
        simp [List.getElem?_replicate, this]
    | succ i' =>
      have h1 : 1 ≤ cl.size := h cl (List.mem_cons_self _ _)
      have hcs : clusterStart (cl :: rest) (i' + 1) = cl.size + clusterStart rest i' := by
        simp [clusterStart, List.take_succ_cons]
      have hlen : (cl.advance :: List.replicate (cl.size - 1) (0 : ℚ)).length = cl.size := by
        simp
        omega
      rw [hcs]
      simp only [clusterAdvances]
      rw [Nat.add_assoc, List.getElem?_append_right (by rw [hlen]; omega)]
      rw [hlen, Nat.add_sub_cancel_left]
      exact ih (fun cc hc => h cc (List.mem_cons_of_mem _ hc)) i'
        (Nat.lt_of_succ_lt_succ hi) j hj1 hj2

/-- Under a single-run, single-word segmentation and an empty cache, the
advances stored by `doLayout` are exactly the word's shaped advances. -/
theorem doLayout_single_word (l : Layout) (b : Backend) (buf : List Nat)
    (start count bufSize bidiFlags : Nat) (style : FontStyle) (paint : MinikinPaint)
    (hr : b.bidiRuns bidiFlags buf start count bufSize = [⟨start, count, false⟩])
    (hw : b.wordSpans buf start count false = [(start, count)])
    (hlen : (b.shape ⟨window buf bufSize start count, false, style, paint,
              l.mCollection, false⟩).advances.length = count) :
    ((l.doLayout b buf start count bufSize bidiFlags style paint []).1).mAdvances
      = (b.shape ⟨window buf bufSize start count, false, style, paint,
          l.mCollection, false⟩).advances := by
  unfold Layout.doLayout
  rw [hr]
  simp only [doLayoutRuns, doLayoutWords]
  rw [hw]
  simp only [doLayoutWords, shapeWordCached, lookupWord]
  rw [appendLayout_mAdvances]
  have hsub : start - start = 0 := Nat.sub_self start
  rw [hsub]
  apply writeAt_zero_full
  simp [hlen]

/-! ### Helper facts for concrete instantiations -/

theorem plainCoherent_nil (b : Backend) : PlainCoherent b [] := by
  intro k e _ h
  simp [lookupWord] at h

theorem encCoherent_nil (b : Backend) (cb : List Nat) : EncCoherent b cb [] := by
  intro k e _ h
  simp [lookupWord] at h

theorem cacheWF_nil : CacheWF [] := by
  intro k e h
  simp [lookupWord] at h

theorem demoBackend_WF : BackendWF demoBackend := by
  intro k g hg
  simp only [demoBackend, demoShape] at hg
  obtain ⟨cu, hcu, hgeq⟩ := List.mem_map.mp hg
  rw [← hgeq]
  exact Nat.zero_lt_one

theorem demoCb_ne : ∀ n : Nat, List.getD [1] n 0 ≠ n := by
  intro n
  cases n with
  | zero => decide
  | succ m => simp [List.getD]

theorem newLayout_FaceInv : newLayout.FaceInv := by
  intro g hg
  simp [newLayout] at hg

/-! ### The claims -/

/-- C1: for every input buffer, window, bidi flags, style and paint (and
any coherent shared-cache state), the per-code-unit advances produced by
`doEncryptedLayout` equal the advances produced by `doLayout` on the same
arguments; and whenever the input text is non-trivial (the plain layout
produces at least one glyph on a fresh instance) and the codebook is a
proper substitution, the glyph ids of the encrypted glyph stream differ
from the plain layout's glyph ids. -/
theorem doEncryptedLayout_width_preserving_content_hiding
    (b : Backend) (cb : List Nat) (l : Layout) (buf : List Nat)
    (start count bufSize bidiFlags : Nat) (style : FontStyle)
    (paint : MinikinPaint) (c : WordCache)
    (hcp : PlainCoherent b c) (hce : EncCoherent b cb c) :
    (l.doEncryptedLayout b cb buf start count bufSize bidiFlags style paint c).1.mAdvances
      = (l.doLayout b buf start count bufSize bidiFlags style paint c).1.mAdvances
    ∧ (l.mGlyphs = [] →
       (l.doLayout b buf start count bufSize bidiFlags style paint c).1.mGlyphs ≠ [] →
       (∀ n, cb.getD n 0 ≠ n) →
       (l.doEncryptedLayout b cb buf start count bufSize bidiFlags style paint c).1.mGlyphs.map
           LayoutGlyph.glyph_id
         ≠ (l.doLayout b buf start count bufSize bidiFlags style paint c).1.mGlyphs.map
           LayoutGlyph.glyph_id) := by
  obtain ⟨a1, a2, a3⟩ := doEncryptedLayout_rel l b cb buf start count bufSize bidiFlags
    style paint c hcp hce
  refine ⟨a1, ?_⟩
  intro hnil hne hcb heq
  obtain ⟨suf, hp, he⟩ := a3
  rw [hnil] at hp he
  simp only [List.nil_append] at hp he
  cases suf with
  | nil => exact hne hp
  | cons g rest =>
    rw [hp, he] at heq
    simp only [List.map_cons, List.map_map, List.cons.injEq] at heq
    exact hcb g.glyph_id heq.1

/-- Concrete instantiation of C1: a one-code-unit text, the demonstration
backend, the codebook table `[1]`, the empty cache. -/
theorem doEncryptedLayout_width_preserving_content_hiding_witness :
    PlainCoherent demoBackend [] ∧ EncCoherent demoBackend [1] []
    ∧ (newLayout.doEncryptedLayout demoBackend [1] [5] 0 1 1 0 ⟨0⟩ ⟨0⟩ []).1.mAdvances
        = (newLayout.doLayout demoBackend [5] 0 1 1 0 ⟨0⟩ ⟨0⟩ []).1.mAdvances
    ∧ (newLayout.doEncryptedLayout demoBackend [1] [5] 0 1 1 0 ⟨0⟩ ⟨0⟩ []).1.mGlyphs.map
          LayoutGlyph.glyph_id
        ≠ (newLayout.doLayout demoBackend [5] 0 1 1 0 ⟨0⟩ ⟨0⟩ []).1.mGlyphs.map
          LayoutGlyph.glyph_id := by
  have hcp := plainCoherent_nil demoBackend
  have hce := encCoherent_nil demoBackend [1]
  have h := doEncryptedLayout_width_preserving_content_hiding demoBackend [1] newLayout
    [5] 0 1 1 0 ⟨0⟩ ⟨0⟩ [] hcp hce
  exact ⟨hcp, hce, h.1, h.2 rfl (by decide) demoCb_ne⟩

/-- C2: for every buffer, window, bidi flags, style, paint and font
collection (and shared-cache state), `measureText` fills the advances
output with exactly the per-code-unit advances `doLayout` stores in its
`Advances` array for the same arguments, returns the total advance the
layout accumulates, and drives the shared cache identically. -/
theorem measureText_advances_eq_doLayout
    (b : Backend) (l : Layout) (buf : List Nat)
    (start count bufSize bidiFlags : Nat) (style : FontStyle)
    (paint : MinikinPaint) (c : WordCache) :
    (measureText b buf start count bufSize bidiFlags style paint l.mCollection c).1.2
      = (l.doLayout b buf start count bufSize bidiFlags style paint c).1.mAdvances
    ∧ l.mAdvance
        + (measureText b buf start count bufSize bidiFlags style paint l.mCollection c).1.1
      = (l.doLayout b buf start count bufSize bidiFlags style paint c).1.mAdvance
    ∧ (measureText b buf start count bufSize bidiFlags style paint l.mCollection c).2
      = (l.doLayout b buf start count bufSize bidiFlags style paint c).2 := by
  obtain ⟨m1, m2, m3⟩ := measureRuns_sim b buf bufSize start style paint l.mCollection
    (b.bidiRuns bidiFlags buf start count bufSize)
    { l with mAdvances := List.replicate count 0 } c 0
  refine ⟨m1, ?_, m3⟩
  rw [add_zero] at m2
  exact m2

/-- C3: for every `doLayout(buf, start, count, bufSize, bidiFlags, style,
paint)` call with `start + count <= bufSize`, the `Advances` array of the
layout has length exactly `count` after the call. -/
theorem doLayout_advances_length_eq_count
    (l : Layout) (b : Backend) (buf : List Nat)
    (start count bufSize bidiFlags : Nat) (style : FontStyle)
    (paint : MinikinPaint) (c : WordCache)
    (h : start + count ≤ bufSize) :
    ((l.doLayout b buf start count bufSize bidiFlags style paint c).1).mAdvances.length
      = count :=
  doLayout_adv_length l b buf start count bufSize bidiFlags style paint c

/-- Concrete instantiation of C3: a two-code-unit window of a
two-code-unit buffer. -/
theorem doLayout_advances_length_eq_count_witness :
    0 + 2 ≤ 2
    ∧ ((newLayout.doLayout demoBackend [72, 105] 0 2 2 0 ⟨0⟩ ⟨0⟩ []).1).mAdvances.length
        = 2 :=
  ⟨by decide,
   doLayout_advances_length_eq_count newLayout demoBackend [72, 105] 0 2 2 0 ⟨0⟩ ⟨0⟩ []
     (by decide)⟩

/-- C4: `doLayout` is idempotent with respect to the shared word cache:
for a fixed argument tuple, a second run whose cache state contains the
entries the first run inserted produces a layout bit-identical to the
first run's (the cache-hit path reproduces the cache-miss path), for any
coherent initial cache. -/
theorem doLayout_idempotent_wrt_cache
    (l : Layout) (b : Backend) (buf : List Nat)
    (start count bufSize bidiFlags : Nat) (style : FontStyle)
    (paint : MinikinPaint) (c : WordCache)
    (hc : PlainCoherent b c) :
    (l.doLayout b buf start count bufSize bidiFlags style paint
        (l.doLayout b buf start count bufSize bidiFlags style paint c).2).1
      = (l.doLayout b buf start count bufSize bidiFlags style paint c).1 := by
  obtain ⟨_, hcoh⟩ := doLayout_coherent l b buf start count bufSize bidiFlags style paint
    c c hc hc
  obtain ⟨heq, _⟩ := doLayout_coherent l b buf start count bufSize bidiFlags style paint
    (l.doLayout b buf start count bufSize bidiFlags style paint c).2 c hcoh hc
  exact heq

/-- Concrete instantiation of C4: the second run over the cache produced
by the first run, from the empty cache. -/
theorem doLayout_idempotent_wrt_cache_witness :
    PlainCoherent demoBackend []
    ∧ (newLayout.doLayout demoBackend [5] 0 1 1 0 ⟨0⟩ ⟨0⟩
          (newLayout.doLayout demoBackend [5] 0 1 1 0 ⟨0⟩ ⟨0⟩ []).2).1
        = (newLayout.doLayout demoBackend [5] 0 1 1 0 ⟨0⟩ ⟨0⟩ []).1 :=
  ⟨plainCoherent_nil demoBackend,
   doLayout_idempotent_wrt_cache newLayout demoBackend [5] 0 1 1 0 ⟨0⟩ ⟨0⟩ []
     (plainCoherent_nil demoBackend)⟩

/-- C5: the face-index invariant — every glyph's `font_ix` is a valid
index into the same instance's face table — is preserved by `reset`, by
`appendLayout` of a well-formed shaped word (including entries copied out
of the shared cache, whose local indices are re-resolved through the
destination's face table), and by `doLayout` and `doEncryptedLayout` over
a well-formed backend and cache. -/
theorem layout_face_index_invariant
    (b : Backend) (l : Layout) (e : ShapedWord) (off : Nat) (cb : List Nat)
    (buf : List Nat) (start count bufSize bidiFlags : Nat)
    (style : FontStyle) (paint : MinikinPaint) (c : WordCache)
    (hb : BackendWF b) (hc : CacheWF c) (hl : l.FaceInv) (he : e.WF) :
    (l.reset).FaceInv
    ∧ (l.appendLayout e off).FaceInv
    ∧ (l.doLayout b buf start count bufSize bidiFlags style paint c).1.FaceInv
    ∧ (l.doEncryptedLayout b cb buf start count bufSize bidiFlags style paint c).1.FaceInv := by
  refine ⟨?_, appendLayout_FaceInv hl he,
    (doLayout_WF l buf start count bufSize bidiFlags style paint c hb hc hl).1,
    (doEncryptedLayout_WF l cb buf start count bufSize bidiFlags style paint c hb hc hl).1⟩
  intro g hg
  simp [Layout.reset] at hg

/-- Concrete instantiation of C5: the demonstration backend, a fresh
layout, a well-formed cache-style shaped word, the empty cache. -/
theorem layout_face_index_invariant_witness :
    BackendWF demoBackend ∧ CacheWF [] ∧ newLayout.FaceInv
    ∧ (ShapedWord.WF ⟨[demoFace], [⟨0, 5, 0, 0⟩], [1], 1, ⟨0, 0, 1, 1⟩⟩)
    ∧ (newLayout.reset).FaceInv
    ∧ (newLayout.appendLayout ⟨[demoFace], [⟨0, 5, 0, 0⟩], [1], 1, ⟨0, 0, 1, 1⟩⟩ 0).FaceInv
    ∧ (newLayout.doLayout demoBackend [5] 0 1 1 0 ⟨0⟩ ⟨0⟩ []).1.FaceInv
    ∧ (newLayout.doEncryptedLayout demoBackend [1] [5] 0 1 1 0 ⟨0⟩ ⟨0⟩ []).1.FaceInv := by
  have hwf : ShapedWord.WF ⟨[demoFace], [⟨0, 5, 0, 0⟩], [1], 1, ⟨0, 0, 1, 1⟩⟩ := by
    intro g hg
    simp only [List.mem_singleton] at hg
    rw [hg]
    exact Nat.zero_lt_one
  obtain ⟨h1, h2, h3, h4⟩ := layout_face_index_invariant demoBackend newLayout
    ⟨[demoFace], [⟨0, 5, 0, 0⟩], [1], 1, ⟨0, 0, 1, 1⟩⟩ 0 [1] [5] 0 1 1 0 ⟨0⟩ ⟨0⟩ []
    demoBackend_WF cacheWF_nil newLayout_FaceInv hwf
  exact ⟨demoBackend_WF, cacheWF_nil, newLayout_FaceInv, hwf, h1, h2, h3, h4⟩

/-- C6: `reset()` followed by `doLayout` on a previously used instance
yields glyph, advance, face-table, total-advance and bounds state (all
state except the codebook fields, which the claim does not cover)
identical to the same `doLayout` call on a freshly constructed instance
bound to the same collection, and drives the cache identically; and
`reset` clears the face table and the glyph/advance arrays together,
zeroing the total advance and bounds with them, never partially. -/
theorem reset_doLayout_eq_fresh_doLayout
    (b : Backend) (s : Layout) (buf : List Nat)
    (start count bufSize bidiFlags : Nat) (style : FontStyle)
    (paint : MinikinPaint) (c : WordCache) :
    Layout.clearCodebook
        ((s.reset).doLayout b buf start count bufSize bidiFlags style paint c).1
      = Layout.clearCodebook
          (((newLayout.setFontCollection s.mCollection).doLayout
            b buf start count bufSize bidiFlags style paint c).1)
    ∧ ((s.reset).doLayout b buf start count bufSize bidiFlags style paint c).2
      = ((newLayout.setFontCollection s.mCollection).doLayout
          b buf start count bufSize bidiFlags style paint c).2
    ∧ (s.reset).mGlyphs = [] ∧ (s.reset).mAdvances = [] ∧ (s.reset).mFaces = []
    ∧ (s.reset).mAdvance = 0 ∧ (s.reset).mBounds = MinikinRect.empty := by
  have key : Layout.clearCodebook (s.reset)
      = Layout.clearCodebook (newLayout.setFontCollection s.mCollection) := by
    cases s
    rfl
  have h1 := doLayout_clearCodebook (s.reset) b buf start count bufSize bidiFlags
    style paint c
  have h2 := doLayout_clearCodebook (newLayout.setFontCollection s.mCollection) b buf
    start count bufSize bidiFlags style paint c
  have h3 : (Layout.clearCodebook (s.reset)).doLayout
        b buf start count bufSize bidiFlags style paint c
      = (Layout.clearCodebook (newLayout.setFontCollection s.mCollection)).doLayout
          b buf start count bufSize bidiFlags style paint c := by
    rw [key]
  rw [h1, h2] at h3
  have e1 := congrArg Prod.fst h3
  have e2 := congrArg Prod.snd h3
  exact ⟨e1, e2, rfl, rfl, rfl, rfl, rfl⟩

/-- C7: `findFace` returns the index of an existing face-table entry equal
by value whenever one is present (leaving the table unchanged), otherwise
appends exactly one new entry and returns its index; the table is
append-only, so the returned index always denotes the given face and
previously returned indices stay valid. -/
theorem findFace_dedup_append_only (faces : List FakedFont) (f : FakedFont) :
    (∃ t, (findFace faces f).2 = faces ++ t)
    ∧ ((findFace faces f).2)[(findFace faces f).1]? = some f
    ∧ (f ∈ faces → (findFace faces f).2 = faces)
    ∧ (f ∉ faces →
        (findFace faces f).2 = faces ++ [f] ∧ (findFace faces f).1 = faces.length) :=
  ⟨findFace_extend faces f, findFace_get faces f,
   findFace_mem_unchanged faces f, findFace_not_mem faces f⟩

/-- Concrete instantiation of C7: a hit on a one-entry table and a miss on
the empty table. -/
theorem findFace_dedup_append_only_witness :
    (findFace [demoFace] demoFace).2 = [demoFace]
    ∧ (findFace ([] : List FakedFont) demoFace).2 = [] ++ [demoFace]
    ∧ (findFace ([] : List FakedFont) demoFace).1 = ([] : List FakedFont).length := by
  have h1 := (findFace_dedup_append_only [demoFace] demoFace).2.2.1 (by decide)
  have h2 := (findFace_dedup_append_only ([] : List FakedFont) demoFace).2.2.2 (by decide)
  exact ⟨h1, h2.1, h2.2⟩

/-- C8: when a window shapes as one run and one word whose advances have
the cluster structure `cs` (leading unit carries the cluster advance,
trailing units zero), the `Advances` array after `doLayout` is exactly
that cluster structure: the leading slot of each cluster carries the whole
cluster's advance and every trailing slot carries exactly 0; a
two-code-unit base-plus-combining-mark input yields exactly two advance
slots with the mark's slot equal to 0. -/
theorem doLayout_cluster_advances
    (l : Layout) (b : Backend) (buf : List Nat)
    (start count bufSize bidiFlags : Nat) (style : FontStyle)
    (paint : MinikinPaint) (cs : List GlyphCluster)
    (hr : b.bidiRuns bidiFlags buf start count bufSize = [⟨start, count, false⟩])
    (hw : b.wordSpans buf start count false = [(start, count)])
    (hadv : (b.shape ⟨window buf bufSize start count, false, style, paint,
              l.mCollection, false⟩).advances = clusterAdvances cs)
    (hsz : ∀ cc ∈ cs, 1 ≤ cc.size)
    (hsum : (cs.map GlyphCluster.size).sum = count) :
    ((l.doLayout b buf start count bufSize bidiFlags style paint []).1).mAdvances
      = clusterAdvances cs
    ∧ ((l.doLayout b buf start count bufSize bidiFlags style paint []).1).mAdvances.length
      = count
    ∧ (∀ (i : Nat) (hi : i < cs.length),
        ((l.doLayout b buf start count bufSize bidiFlags style paint
            []).1).mAdvances[clusterStart cs i]?
          = some (cs.get ⟨i, hi⟩).advance
        ∧ ∀ j, 1 ≤ j → j < (cs.get ⟨i, hi⟩).size →
            ((l.doLayout b buf start count bufSize bidiFlags style paint
                []).1).mAdvances[clusterStart cs i + j]?
              = some 0) := by
  have hmain := doLayout_single_word l b buf start count bufSize bidiFlags style paint
    hr hw (by rw [hadv, clusterAdvances_length cs hsz, hsum])
  rw [hmain, hadv]
  refine ⟨rfl, ?_, ?_⟩
  · rw [clusterAdvances_length cs hsz, hsum]
  · exact fun i hi => ⟨clusterAdvances_lead cs hsz i hi,
      fun j hj1 hj2 => clusterAdvances_trail cs hsz i hi j hj1 hj2⟩

/-- Concrete instantiation of C8: a base code unit plus a combining mark
(two code units, one cluster of width 3): exactly two advance slots, the
mark's slot equal to 0, the base's slot carrying the full cluster width. -/
theorem doLayout_cluster_advances_witness :
    ((newLayout.doLayout markBackend [66, 768] 0 2 2 0 ⟨0⟩ ⟨0⟩ []).1).mAdvances
      = [3, 0]
    ∧ ((newLayout.doLayout markBackend [66, 768] 0 2 2 0 ⟨0⟩ ⟨0⟩ []).1).mAdvances.length
      = 2
    ∧ ((newLayout.doLayout markBackend [66, 768] 0 2 2 0 ⟨0⟩ ⟨0⟩ []).1).mAdvances[0]?
      = some 3
    ∧ ((newLayout.doLayout markBackend [66, 768] 0 2 2 0 ⟨0⟩ ⟨0⟩ []).1).mAdvances[1]?
      = some 0 := by
  have h := doLayout_cluster_advances newLayout markBackend [66, 768] 0 2 2 0 ⟨0⟩ ⟨0⟩
    [⟨2, 3⟩] rfl rfl rfl (by decide) (by decide)
  have hlead := (h.2.2 0 (by decide)).1
  have htrail := (h.2.2 0 (by decide)).2 1 (by decide) (by decide)
  refine ⟨?_, h.2.1, ?_, ?_⟩
  · rw [h.1]
    decide
  · exact hlead
  · exact htrail

/-- C9: a freshly constructed `Layout` (the constructor initializer list
of `Layout.h` lines 85-88) observes as zero glyphs, zero total advance,
null glyph codebook, zero codebook size, and an empty bounding rect. -/
theorem newLayout_initial_observations :
    newLayout.nGlyphs = 0
    ∧ newLayout.getAdvance = 0
    ∧ newLayout.getGlyphCodebook = none
    ∧ newLayout.getCodebookSize = 0
    ∧ newLayout.getBounds = MinikinRect.empty
    ∧ (newLayout.getBounds).isEmpty = true := by
  decide

/-- C10: `getCharAdvance(i)` returns `mAdvances[i]` with no bounds check;
under the precondition that a preceding `doLayout` populated the advances
for the call's `count` and `i < count`, the out-of-range (`none`) branch
of the embedded `Option`-valued indexing is unreachable: the result is
`some` of the stored advance. -/
theorem getCharAdvance_in_range_after_doLayout
    (l : Layout) (b : Backend) (buf : List Nat)
    (start count bufSize bidiFlags : Nat) (style : FontStyle)
    (paint : MinikinPaint) (c : WordCache) (i : Nat)
    (hi : i < count) :
    ∃ a, ((l.doLayout b buf start count bufSize bidiFlags style paint c).1).getCharAdvance i
      = some a := by
  have hlen := doLayout_adv_length l b buf start count bufSize bidiFlags style paint c
  have hlt : i < ((l.doLayout b buf start count bufSize bidiFlags style
      paint c).1).mAdvances.length := by
    rw [hlen]
    exact hi
  exact ⟨_, List.getElem?_eq_getElem hlt⟩

/-- Concrete instantiation of C10: index 0 of a one-code-unit layout. -/
theorem getCharAdvance_in_range_after_doLayout_witness :
    0 < 1
    ∧ ∃ a, ((newLayout.doLayout demoBackend [5] 0 1 1 0 ⟨0⟩ ⟨0⟩ []).1).getCharAdvance 0
      = some a :=
  ⟨Nat.zero_lt_one,
   getCharAdvance_in_range_after_doLayout newLayout demoBackend [5] 0 1 1 0 ⟨0⟩ ⟨0⟩ [] 0
     Nat.zero_lt_one⟩

end Minikin
